import Mathlib

/-! StampDispenser.

A shallow embedding of `LGStampDispenser.cpp`: the constructor of the class
`StampDispenser`, which validates and stores the denomination array, and the
member function `CalcNumStampsToFillRequest`, the bottom-up table computation
of the minimum number of stamps.

Conventions of the embedding.

* A C array together with its element count is a `List Int`; the count
  `numStampDenominations` is the length of the list and is taken to fit in an
  `int`, so that the cast `(int)numStampDenominations` is exact.
* A value of type `int` is an `Int`. Where the source adds one to a table
  cell, the sum is reduced to the 32-bit two's-complement range by `wrapInt`.
* An access outside an array, and a table whose length `request + 1` is not
  an `int`, have no defined result: they are the outcome `undefined` of the
  constructor and the result `none` of the query.
-/

namespace LGStampDispenser

/-- Largest value of the type `int` (`limits.h`). -/
def INT_MAX : Int := 2147483647

/-- Smallest value of the type `int` (`limits.h`). -/
def INT_MIN : Int := -2147483648

/-- Two's-complement reduction of a mathematical integer to the range of `int`. -/
def wrapInt (x : Int) : Int := (x + 2147483648) % 4294967296 - 2147483648

/-- How a piece of the constructor ends: it runs to its end with a value,
it calls `exit(1)`, or it accesses an array out of bounds. -/
inductive Outcome (α : Type) where
  | done (a : α)
  | exited
  | undefined
  deriving DecidableEq, Repr

/-- Private members of the class: the array `stampDenoms` and its count
`numStampDenoms`. -/
structure StampDispenser where
  stampDenoms : List Int
  numStampDenoms : Nat
  deriving DecidableEq, Repr

/-- The loop `for(int i = 0; i < (int)numStampDenominations - 1; i++)` of the
constructor with `k` iterations left to run from index `i`. An iteration calls
`exit(1)` when `stampDenominations[i] < stampDenominations[i + 1]` and
otherwise performs `stampDenoms[i] = stampDenominations[i]`. -/
def StampDispenser.checkLoop (stampDenominations : List Int) :
    Nat → Nat → List Int → Outcome (List Int)
  | 0, _, stampDenoms => Outcome.done stampDenoms
  | k + 1, i, stampDenoms =>
    match stampDenominations[i]?, stampDenominations[i + 1]? with
    | some a, some b =>
      if a < b then Outcome.exited
      else StampDispenser.checkLoop stampDenominations k (i + 1) (stampDenoms.set i a)
    | _, _ => Outcome.undefined

/-- The constructor `StampDispenser::StampDispenser` (the class name is
already the name of the structure, so the function is called `construct`).
The fresh array
`new int[numStampDenominations]` is a list of that many cells (their initial
content, unspecified in the source, is `0` here and is overwritten before the
constructor returns); after the loop the last element is copied and compared
with `1`. With no element at all the index `numStampDenominations - 1` is
outside the array. -/
def StampDispenser.construct (stampDenominations : List Int) : Outcome StampDispenser :=
  let numStampDenominations := stampDenominations.length
  match StampDispenser.checkLoop stampDenominations (numStampDenominations - 1) 0
      (List.replicate numStampDenominations 0) with
  | Outcome.exited => Outcome.exited
  | Outcome.undefined => Outcome.undefined
  | Outcome.done stampDenoms =>
    if numStampDenominations = 0 then Outcome.undefined
    else
      match stampDenominations[numStampDenominations - 1]? with
      | none => Outcome.undefined
      | some last =>
        if last ≠ 1 then Outcome.exited
        else Outcome.done
          { stampDenoms := stampDenoms.set (numStampDenominations - 1) last
            numStampDenoms := numStampDenominations }

/-- Body of the inner loop of `CalcNumStampsToFillRequest` for the value `i`
and the index `j`:
`if(stampDenoms[j] <= i) { int result = stamp_table[i - stampDenoms[j]];
if(result != -1 && result + 1 < stamp_table[i]) stamp_table[i] = result + 1; }`.
The result is `none` when an index is outside its array. -/
def StampDispenser.innerBody (self : StampDispenser) (i : Nat) (stamp_table : List Int)
    (j : Nat) : Option (List Int) :=
  match self.stampDenoms[j]? with
  | none => none
  | some dj =>
    if dj ≤ (i : Int) then
      match stamp_table[((i : Int) - dj).toNat]?, stamp_table[i]? with
      | some result, some cur =>
        if result ≠ -1 ∧ wrapInt (result + 1) < cur then
          some (stamp_table.set i (wrapInt (result + 1)))
        else some stamp_table
      | _, _ => none
    else some stamp_table

/-- The inner loop `for(int j = 0; j < (int)numStampDenoms; j++)` for the
value `i`. -/
def StampDispenser.innerLoop (self : StampDispenser) (stamp_table : List Int) (i : Nat) :
    Option (List Int) :=
  (List.range self.numStampDenoms).foldlM (self.innerBody i) stamp_table

/-- The table of `CalcNumStampsToFillRequest` when the double loop has
finished, for a request `n` with `0 <= n`: `stamp_table[0] = 0`, the other
`n` cells start at `INT_MAX`, and the outer loop runs `i` from `1` to `n`. -/
def StampDispenser.stampTable (self : StampDispenser) (n : Nat) : Option (List Int) :=
  (List.range' 1 n).foldlM self.innerLoop (0 :: List.replicate n INT_MAX)

/-- The member function `CalcNumStampsToFillRequest`. A negative request
returns `-1`; the table `int stamp_table[request + 1]` exists when
`request + 1` is an `int`, that is when `request < INT_MAX`; the value
returned is `stamp_table[request]`. -/
def StampDispenser.CalcNumStampsToFillRequest (self : StampDispenser) (request : Int) :
    Option Int :=
  if request < 0 then some (-1)
  else if INT_MAX ≤ request then none
  else
    match self.stampTable request.toNat with
    | none => none
    | some stamp_table => stamp_table[request.toNat]?

/-- The effect of one pass of the inner loop body on the cell `stamp_table[i]`,
read off the table `tbl` whose cells below `i` are final: with current value
`v` and denomination `d`, the cell becomes `tbl[i - d] + 1` when `d <= i` and
that sum is smaller, and stays `v` otherwise. Used to describe the inner loop
as a fold over the denominations. -/
def relax (tbl : List Int) (i : Nat) (v d : Int) : Int :=
  if d ≤ (i : Int) then
    match tbl[((i : Int) - d).toNat]? with
    | some c => if c + 1 < v then c + 1 else v
    | none => v
  else v

/-- The number `c` is the least number of values drawn from `ds`, with
repetition, whose sum is `v`: some list of `c` such values sums to `v` and no
such list is shorter. -/
def IsMinCount (ds : List Int) (v : Int) (c : Nat) : Prop :=
  (∃ l : List Int, l.length = c ∧ (∀ x ∈ l, x ∈ ds) ∧ l.sum = v) ∧
    ∀ l : List Int, (∀ x ∈ l, x ∈ ds) → l.sum = v → c ≤ l.length

/-- The table of a call with request `n` as it stands just before pass `j` of
the inner loop for the value `i`: the outer loop has finished the values
`1 .. i - 1` and the inner loop for `i` has finished the indices `0 .. j - 1`.
This is the table that pass `j` reads its predecessor cell from. -/
def StampDispenser.tableBefore (self : StampDispenser) (n i j : Nat) : Option (List Int) :=
  match (List.range' 1 (i - 1)).foldlM self.innerLoop (0 :: List.replicate n INT_MAX) with
  | none => none
  | some stamp_table => (List.range j).foldlM (self.innerBody i) stamp_table

/-- The inner loop body with the test `result != -1` removed:
`if(stampDenoms[j] <= i) { int result = stamp_table[i - stampDenoms[j]];
if(result + 1 < stamp_table[i]) stamp_table[i] = result + 1; }`. -/
def StampDispenser.innerBodyNoGate (self : StampDispenser) (i : Nat) (stamp_table : List Int)
    (j : Nat) : Option (List Int) :=
  match self.stampDenoms[j]? with
  | none => none
  | some dj =>
    if dj ≤ (i : Int) then
      match stamp_table[((i : Int) - dj).toNat]?, stamp_table[i]? with
      | some result, some cur =>
        if wrapInt (result + 1) < cur then
          some (stamp_table.set i (wrapInt (result + 1)))
        else some stamp_table
      | _, _ => none
    else some stamp_table

/-- The inner loop over `innerBodyNoGate`. -/
def StampDispenser.innerLoopNoGate (self : StampDispenser) (stamp_table : List Int) (i : Nat) :
    Option (List Int) :=
  (List.range self.numStampDenoms).foldlM (self.innerBodyNoGate i) stamp_table

/-- The finished table of the double loop over `innerBodyNoGate`. -/
def StampDispenser.stampTableNoGate (self : StampDispenser) (n : Nat) : Option (List Int) :=
  (List.range' 1 n).foldlM self.innerLoopNoGate (0 :: List.replicate n INT_MAX)

/-- The function `CalcNumStampsToFillRequest` with the test `result != -1`
removed from its loop and nothing else changed. -/
def StampDispenser.CalcNumStampsNoGate (self : StampDispenser) (request : Int) : Option Int :=
  if request < 0 then some (-1)
  else if INT_MAX ≤ request then none
  else
    match self.stampTableNoGate request.toNat with
    | none => none
    | some stamp_table => stamp_table[request.toNat]?

/-! ## The constructor -/

theorem set_append_cons {α : Type} (p r : List α) (x a : α) (i : Nat) (h : p.length = i) :
    (p ++ x :: r).set i a = p ++ a :: r := by
  induction p generalizing i with
  | nil => subst h; rfl
  | cons y p ih =>
    subst h
    simp only [List.cons_append, List.length_cons, List.set_cons_succ]
    rw [ih _ rfl]

theorem getElem?_append_cons {α : Type} (p r : List α) (x : α) (i : Nat) (h : p.length = i) :
    (p ++ x :: r)[i]? = some x := by
  induction p generalizing i with
  | nil => subst h; simp
  | cons y p ih =>
    subst h
    simp only [List.cons_append, List.length_cons, List.getElem?_cons_succ]
    exact ih _ rfl

theorem set_take_replicate (src : List Int) (i : Nat) (a : Int) (h : src[i]? = some a) :
    (src.take i ++ List.replicate (src.length - i) 0).set i a
      = src.take (i + 1) ++ List.replicate (src.length - (i + 1)) 0 := by
  have hi : i < src.length := by
    rcases Nat.lt_or_ge i src.length with h1 | h1
    · exact h1
    · rw [List.getElem?_eq_none h1] at h; cases h
  have hlen : (src.take i).length = i := by simp; omega
  have hrep : List.replicate (src.length - i) (0 : Int)
      = 0 :: List.replicate (src.length - (i + 1)) 0 := by
    have : src.length - i = (src.length - (i + 1)) + 1 := by omega
    rw [this, List.replicate_succ]
  have hget : src[i] = a := by
    rw [List.getElem?_eq_getElem hi] at h; exact Option.some.inj h
  rw [hrep]
  rw [set_append_cons _ _ _ _ _ hlen, List.take_succ, List.getElem?_eq_getElem hi, hget]
  simp

/-- A loop that ran to its end met no ascending adjacent pair. -/
theorem checkLoop_done_pairs (src : List Int) :
    ∀ (k i : Nat) (acc r : List Int),
      StampDispenser.checkLoop src k i acc = Outcome.done r →
      ∀ m, i ≤ m → m < i + k → ∀ a b, src[m]? = some a → src[m + 1]? = some b → b ≤ a := by
  intro k
  induction k with
  | zero => intro i acc r _ m h1 h2; omega
  | succ k ih =>
    intro i acc r h m h1 h2 a b ha hb
    rw [StampDispenser.checkLoop] at h
    split at h
    · rename_i a0 b0 ha0 hb0
      split at h
      · cases h
      · rename_i hlt
        rcases Nat.eq_or_lt_of_le h1 with heq | hgt
        · subst heq
          rw [ha0] at ha; rw [hb0] at hb
          cases ha; cases hb
          exact not_lt.mp hlt
        · exact ih (i + 1) _ r h m hgt (by omega) a b ha hb
    · cases h

/-- Without an ascending adjacent pair the loop copies the elements it visits. -/
theorem checkLoop_of_pairs (src : List Int) :
    ∀ (k i : Nat), i + k < src.length →
      (∀ m, i ≤ m → m < i + k → ∀ a b, src[m]? = some a → src[m + 1]? = some b → b ≤ a) →
      StampDispenser.checkLoop src k i (src.take i ++ List.replicate (src.length - i) 0)
        = Outcome.done (src.take (i + k) ++ List.replicate (src.length - (i + k)) 0) := by
  intro k
  induction k with
  | zero => intro i _ _; simp [StampDispenser.checkLoop]
  | succ k ih =>
    intro i hlen hp
    have hi : i < src.length := by omega
    have hi1 : i + 1 < src.length := by omega
    have ha : src[i]? = some src[i] := List.getElem?_eq_getElem hi
    have hb : src[i + 1]? = some src[i + 1] := List.getElem?_eq_getElem hi1
    have hle : src[i + 1] ≤ src[i] := hp i (le_refl _) (by omega) _ _ ha hb
    rw [StampDispenser.checkLoop, ha, hb]
    simp only [not_lt.mpr hle, if_false]
    rw [set_take_replicate src i _ ha, ih (i + 1) (by omega)
      (fun m h1 h2 => hp m (by omega) (by omega))]
    rw [show i + 1 + k = i + (k + 1) by omega]

/-- An ascending adjacent pair among the visited indices ends the loop in `exit(1)`. -/
theorem checkLoop_exited (src : List Int) :
    ∀ (k i : Nat) (acc : List Int), i + k < src.length →
      (∃ m a b, i ≤ m ∧ m < i + k ∧ src[m]? = some a ∧ src[m + 1]? = some b ∧ a < b) →
      StampDispenser.checkLoop src k i acc = Outcome.exited := by
  intro k
  induction k with
  | zero => intro i acc _ h; obtain ⟨m, a, b, h1, h2, _⟩ := h; omega
  | succ k ih =>
    intro i acc hlen h
    obtain ⟨m, a, b, h1, h2, ha, hb, hab⟩ := h
    have hi : i < src.length := by omega
    have hi1 : i + 1 < src.length := by omega
    have ha0 : src[i]? = some src[i] := List.getElem?_eq_getElem hi
    have hb0 : src[i + 1]? = some src[i + 1] := List.getElem?_eq_getElem hi1
    rw [StampDispenser.checkLoop, ha0, hb0]
    simp only
    by_cases hlt : src[i] < src[i + 1]
    · simp [hlt]
    · simp only [hlt, if_false]
      rcases Nat.eq_or_lt_of_le h1 with heq | hgt
      · subst heq
        rw [ha0] at ha; rw [hb0] at hb
        cases ha; cases hb
        exact absurd hab hlt
      · exact ih (i + 1) _ (by omega) ⟨m, a, b, hgt, by omega, ha, hb, hab⟩

/-- A relation holds along a list exactly when it holds at every pair of
adjacent indices. -/
theorem chain'_iff_pairs (R : Int → Int → Prop) (l : List Int) :
    List.Chain' R l ↔ ∀ m a b, l[m]? = some a → l[m + 1]? = some b → R a b := by
  rw [List.chain'_iff_get]
  constructor
  · intro h m a b ha hb
    have hm1 : m + 1 < l.length := by
      rcases Nat.lt_or_ge (m + 1) l.length with h1 | h1
      · exact h1
      · rw [List.getElem?_eq_none h1] at hb; cases hb
    have hm : m < l.length := by omega
    have := h m (by omega)
    rw [List.getElem?_eq_getElem hm] at ha
    rw [List.getElem?_eq_getElem hm1] at hb
    cases ha; cases hb
    simpa using this
  · intro h i hi
    have hi0 : i < l.length := by omega
    have hi1 : i + 1 < l.length := by omega
    simpa using h i _ _ (List.getElem?_eq_getElem hi0) (List.getElem?_eq_getElem hi1)

/-- What the constructor does on a sequence it accepts. -/
theorem construct_done (src : List Int) (d : StampDispenser)
    (h : StampDispenser.construct src = Outcome.done d) :
    src ≠ [] ∧ List.Chain' (fun a b => b ≤ a) src ∧ src.getLast? = some 1 ∧
      d = { stampDenoms := src, numStampDenoms := src.length } := by
  unfold StampDispenser.construct at h
  simp only at h
  split at h
  · cases h
  · cases h
  · rename_i r hr
    split at h
    · cases h
    · rename_i hn
      have hne : src ≠ [] := fun e => hn (by simp [e])
      have hpos : 0 < src.length := Nat.pos_of_ne_zero hn
      split at h
      · cases h
      · rename_i last hlast
        split at h
        · cases h
        · rename_i h1
          have hl1 : last = 1 := not_not.mp h1
          subst hl1
          have hpairs := checkLoop_done_pairs src _ _ _ _ hr
          have hall : ∀ m a b, src[m]? = some a → src[m + 1]? = some b → b ≤ a := by
            intro m a b ha hb
            have hm1 : m + 1 < src.length := by
              rcases Nat.lt_or_ge (m + 1) src.length with h2 | h2
              · exact h2
              · rw [List.getElem?_eq_none h2] at hb; cases hb
            exact hpairs m (Nat.zero_le _) (by omega) a b ha hb
          have hr2 := checkLoop_of_pairs src (src.length - 1) 0 (by omega)
            (fun m _ _ => hall m)
          simp only [List.take_zero, List.nil_append, Nat.sub_zero, Nat.zero_add] at hr2
          rw [hr2] at hr
          cases hr
          refine ⟨hne, (chain'_iff_pairs _ _).mpr hall, ?_, ?_⟩
          · rw [List.getLast?_eq_getElem?]; exact hlast
          · have hs := set_take_replicate src (src.length - 1) 1 hlast
            rw [show src.length - 1 + 1 = src.length by omega] at hs
            simp only [List.take_length, Nat.sub_self, List.replicate_zero,
              List.append_nil] at hs
            cases h
            rw [hs]

/-- The constructor accepts a non-empty sequence without an ascending adjacent
pair whose last element is `1`, and stores it unchanged. -/
theorem construct_of_valid (src : List Int) (hne : src ≠ [])
    (hc : List.Chain' (fun a b => b ≤ a) src) (hl : src.getLast? = some 1) :
    StampDispenser.construct src
      = Outcome.done { stampDenoms := src, numStampDenoms := src.length } := by
  have hpos : 0 < src.length := List.length_pos.mpr hne
  have hall := (chain'_iff_pairs _ _).mp hc
  have hr := checkLoop_of_pairs src (src.length - 1) 0 (by omega) (fun m _ _ => hall m)
  simp only [List.take_zero, List.nil_append, Nat.sub_zero, Nat.zero_add] at hr
  rw [List.getLast?_eq_getElem?] at hl
  have hs := set_take_replicate src (src.length - 1) 1 hl
  rw [show src.length - 1 + 1 = src.length by omega] at hs
  simp only [List.take_length, Nat.sub_self, List.replicate_zero, List.append_nil] at hs
  unfold StampDispenser.construct
  simp only [hr, hl, hs]
  simp [Nat.ne_of_gt hpos]

/-- An ascending adjacent pair makes the constructor call `exit(1)`. -/
theorem construct_exited_of_pair (src : List Int)
    (h : ∃ i a b, src[i]? = some a ∧ src[i + 1]? = some b ∧ a < b) :
    StampDispenser.construct src = Outcome.exited := by
  obtain ⟨m, a, b, ha, hb, hab⟩ := h
  have hm1 : m + 1 < src.length := by
    rcases Nat.lt_or_ge (m + 1) src.length with h2 | h2
    · exact h2
    · rw [List.getElem?_eq_none h2] at hb; cases hb
  have hr := checkLoop_exited src (src.length - 1) 0 (List.replicate src.length 0)
    (by omega) ⟨m, a, b, Nat.zero_le _, by omega, ha, hb, hab⟩
  unfold StampDispenser.construct
  simp only [hr]

/-- A last element other than `1` makes the constructor call `exit(1)`. -/
theorem construct_exited_of_last (src : List Int) (hne : src ≠ [])
    (hl : src.getLast? ≠ some 1) :
    StampDispenser.construct src = Outcome.exited := by
  by_cases hp : ∃ i a b, src[i]? = some a ∧ src[i + 1]? = some b ∧ a < b
  · exact construct_exited_of_pair src hp
  · have hall : ∀ m a b, src[m]? = some a → src[m + 1]? = some b → b ≤ a := by
      intro m a b ha hb
      by_contra hlt
      exact hp ⟨m, a, b, ha, hb, not_le.mp hlt⟩
    have hpos : 0 < src.length := List.length_pos.mpr hne
    have hr := checkLoop_of_pairs src (src.length - 1) 0 (by omega) (fun m _ _ => hall m)
    simp only [List.take_zero, List.nil_append, Nat.sub_zero, Nat.zero_add] at hr
    rw [List.getLast?_eq_getElem?] at hl
    have hlast : src[src.length - 1]? = some src[src.length - 1] :=
      List.getElem?_eq_getElem (by omega)
    have hne1 : src[src.length - 1] ≠ 1 := by
      intro e
      rw [hlast, e] at hl
      exact hl rfl
    unfold StampDispenser.construct
    simp only [hr, hlast]
    simp [Nat.ne_of_gt hpos, hne1]

/-! ## The table computation -/

theorem wrapInt_eq_self (x : Int) (h1 : -2147483648 ≤ x) (h2 : x ≤ 2147483647) :
    wrapInt x = x := by
  unfold wrapInt
  omega

theorem set_eq_self_of_getElem? (tbl : List Int) (i : Nat) (v : Int) (h : tbl[i]? = some v) :
    tbl.set i v = tbl := by
  apply List.ext_getElem?
  intro k
  by_cases hk : i = k
  · subst hk
    rw [List.getElem?_set_self', h]
    rfl
  · rw [List.getElem?_set_ne hk]

/-- One pass of the inner loop body, on a table whose cells below `i` hold
values between `0` and their index, only changes cell `i`, as `relax` says. -/
theorem innerBody_step (ds : List Int) (hpos : ∀ x ∈ ds, 1 ≤ x) (i : Nat) (tbl : List Int)
    (hmax : (i : Int) < INT_MAX) (hlen : i < tbl.length)
    (hlow : ∀ k, k < i → ∃ c : Nat, tbl[k]? = some (c : Int) ∧ c ≤ k)
    (v : Int) (j : Nat) (dj : Int) (hj : ds[j]? = some dj) :
    StampDispenser.innerBody { stampDenoms := ds, numStampDenoms := ds.length } i
        (tbl.set i v) j = some (tbl.set i (relax tbl i v dj)) := by
  have hdj : 1 ≤ dj := hpos dj (List.getElem?_mem hj)
  unfold StampDispenser.innerBody relax
  simp only [hj]
  by_cases hle : dj ≤ (i : Int)
  · simp only [hle, if_true]
    have hidx : ((i : Int) - dj).toNat < i := by omega
    obtain ⟨c, hc, hck⟩ := hlow _ hidx
    rw [List.getElem?_set_ne (Nat.ne_of_gt hidx), hc, List.getElem?_set_self hlen]
    simp only
    have hw : wrapInt ((c : Int) + 1) = (c : Int) + 1 := by
      apply wrapInt_eq_self
      · omega
      · unfold INT_MAX at hmax; omega
    have hne : (c : Int) ≠ -1 := by omega
    rw [hw]
    by_cases hlt : (c : Int) + 1 < v
    · simp [hne, hlt, List.set_set]
    · simp [hlt]
  · simp [hle]

/-- The first `j` passes of the inner loop fold `relax` over the first `j`
denominations. -/
theorem innerLoop_upto (ds : List Int) (hpos : ∀ x ∈ ds, 1 ≤ x) (i : Nat) (tbl : List Int)
    (hmax : (i : Int) < INT_MAX) (hlen : i < tbl.length)
    (hlow : ∀ k, k < i → ∃ c : Nat, tbl[k]? = some (c : Int) ∧ c ≤ k)
    (hcur : tbl[i]? = some INT_MAX) :
    ∀ j, j ≤ ds.length →
      (List.range j).foldlM
          (StampDispenser.innerBody { stampDenoms := ds, numStampDenoms := ds.length } i) tbl
        = some (tbl.set i ((ds.take j).foldl (relax tbl i) INT_MAX)) := by
  intro j
  induction j with
  | zero =>
    intro _
    simp only [List.range_zero, List.foldlM_nil, List.take_zero, List.foldl_nil]
    rw [set_eq_self_of_getElem? tbl i INT_MAX hcur]
    rfl
  | succ j ih =>
    intro hj
    have hjl : j < ds.length := by omega
    have hget : ds[j]? = some ds[j] := List.getElem?_eq_getElem hjl
    rw [List.range_succ, List.foldlM_append, ih (by omega)]
    simp only [Option.bind_eq_bind, Option.some_bind, List.foldlM_cons, List.foldlM_nil]
    rw [innerBody_step ds hpos i tbl hmax hlen hlow _ j _ hget]
    simp only [Option.some_bind, List.take_succ, hget, Option.toList_some, List.foldl_append,
      List.foldl_cons, List.foldl_nil]
    rfl

/-- The inner loop for the value `i` writes into cell `i` the fold of `relax`
over all the denominations and leaves the other cells alone. -/
theorem innerLoop_eq (ds : List Int) (hpos : ∀ x ∈ ds, 1 ≤ x) (i : Nat) (tbl : List Int)
    (hmax : (i : Int) < INT_MAX) (hlen : i < tbl.length)
    (hlow : ∀ k, k < i → ∃ c : Nat, tbl[k]? = some (c : Int) ∧ c ≤ k)
    (hcur : tbl[i]? = some INT_MAX) :
    StampDispenser.innerLoop { stampDenoms := ds, numStampDenoms := ds.length } tbl i
      = some (tbl.set i (ds.foldl (relax tbl i) INT_MAX)) := by
  unfold StampDispenser.innerLoop
  simp only
  rw [innerLoop_upto ds hpos i tbl hmax hlen hlow hcur ds.length (le_refl _), List.take_length]

/-- The fold of `relax` keeps its start value or takes the value
`tbl[i - d] + 1` of one of the denominations `d <= i`. -/
theorem foldl_relax_cases (tbl : List Int) (i : Nat) (ds : List Int) :
    ∀ v0 : Int, ds.foldl (relax tbl i) v0 = v0 ∨
      ∃ d ∈ ds, d ≤ (i : Int) ∧ ∃ c : Int, tbl[((i : Int) - d).toNat]? = some c ∧
        ds.foldl (relax tbl i) v0 = c + 1 := by
  induction ds with
  | nil => intro v0; left; rfl
  | cons d ds ih =>
    intro v0
    rw [List.foldl_cons]
    rcases ih (relax tbl i v0 d) with h | ⟨d', hd', hle, c, hc, he⟩
    · rw [h]
      unfold relax
      by_cases hle : d ≤ (i : Int)
      · simp only [hle, if_true]
        cases hc : tbl[((i : Int) - d).toNat]? with
        | none => left; rfl
        | some c =>
          simp only
          by_cases hlt : c + 1 < v0
          · right
            exact ⟨d, List.mem_cons_self _ _, hle, c, hc, by simp [hlt]⟩
          · left; simp [hlt]
      · left; simp [hle]
    · right
      exact ⟨d', List.mem_cons_of_mem _ hd', hle, c, hc, he⟩

theorem relax_le (tbl : List Int) (i : Nat) (v d : Int) : relax tbl i v d ≤ v := by
  unfold relax
  split
  · split
    · split
      · omega
      · exact le_refl _
    · exact le_refl _
  · exact le_refl _

theorem foldl_relax_le_init (tbl : List Int) (i : Nat) (ds : List Int) :
    ∀ v0 : Int, ds.foldl (relax tbl i) v0 ≤ v0 := by
  induction ds with
  | nil => intro v0; exact le_refl _
  | cons d ds ih =>
    intro v0
    rw [List.foldl_cons]
    exact le_trans (ih _) (relax_le tbl i v0 d)

/-- The fold of `relax` is at most `tbl[i - d] + 1` for every denomination
`d <= i`. -/
theorem foldl_relax_le (tbl : List Int) (i : Nat) (ds : List Int) :
    ∀ v0 : Int, ∀ d ∈ ds, d ≤ (i : Int) → ∀ c : Int,
      tbl[((i : Int) - d).toNat]? = some c → ds.foldl (relax tbl i) v0 ≤ c + 1 := by
  induction ds with
  | nil => intro v0 d hd; cases hd
  | cons d0 ds ih =>
    intro v0 d hd hle c hc
    rw [List.foldl_cons]
    rcases List.mem_cons.mp hd with heq | hmem
    · subst heq
      apply le_trans (foldl_relax_le_init tbl i ds _)
      unfold relax
      simp only [hle, if_true, hc]
      split
      · exact le_refl _
      · omega
    · exact ih _ d hmem hle c hc

theorem isMinCount_zero (ds : List Int) : IsMinCount ds 0 0 :=
  ⟨⟨[], rfl, fun _ hx => (by cases hx), rfl⟩, fun _ _ _ => Nat.zero_le _⟩

theorem sum_nonneg_of_pos (ds l : List Int) (hpos : ∀ x ∈ ds, 1 ≤ x) (hl : ∀ x ∈ l, x ∈ ds) :
    0 ≤ l.sum :=
  List.sum_nonneg fun x hx => le_trans (by decide) (hpos x (hl x hx))

/-- The value the inner loop leaves in cell `i` is the least number of
denominations summing to `i`, when the cells below `i` hold the least numbers
for their indices. -/
theorem isMinCount_step (ds : List Int) (hpos : ∀ x ∈ ds, 1 ≤ x) (h1 : 1 ∈ ds) (i : Nat)
    (hi : 1 ≤ i) (hmax : (i : Int) < INT_MAX) (tbl : List Int)
    (hlow : ∀ k, k < i → ∃ c : Nat, tbl[k]? = some (c : Int) ∧ c ≤ k ∧ IsMinCount ds k c) :
    ∃ c : Nat, ds.foldl (relax tbl i) INT_MAX = (c : Int) ∧ c ≤ i ∧ IsMinCount ds i c := by
  have hidx : ∀ d : Int, 1 ≤ d → d ≤ (i : Int) →
      ((i : Int) - d).toNat < i ∧ ((((i : Int) - d).toNat : Nat) : Int) = (i : Int) - d := by
    intro d hd hle
    constructor <;> omega
  -- the denomination 1 bounds the cell by `i`
  obtain ⟨c1, hc1, hc1k, _⟩ := hlow _ (hidx 1 (le_refl _) (by omega)).1
  have hv1 := foldl_relax_le tbl i ds INT_MAX 1 h1 (by omega) _ hc1
  have hne : ds.foldl (relax tbl i) INT_MAX ≠ INT_MAX := by
    intro e
    rw [e] at hv1
    omega
  rcases foldl_relax_cases tbl i ds INT_MAX with h | ⟨d, hd, hle, c, hc, he⟩
  · exact absurd h hne
  · have hd1 : 1 ≤ d := hpos d hd
    obtain ⟨hlt, hcast⟩ := hidx d hd1 hle
    obtain ⟨c', hc', hck, ⟨l, hlen, hmem, hsum⟩, _⟩ := hlow _ hlt
    rw [hc] at hc'
    cases hc'
    refine ⟨c' + 1, ?_, ?_, ⟨d :: l, ?_, ?_, ?_⟩, ?_⟩
    · rw [he]; push_cast; rfl
    · omega
    · simp [hlen]
    · intro x hx
      rcases List.mem_cons.mp hx with hx | hx
      · rw [hx]; exact hd
      · exact hmem x hx
    · rw [List.sum_cons, hsum, hcast]; omega
    · intro l2 hmem2 hsum2
      cases l2 with
      | nil =>
        rw [List.sum_nil] at hsum2
        omega
      | cons x l3 =>
        have hx : x ∈ ds := hmem2 x (List.mem_cons_self _ _)
        have hx1 : 1 ≤ x := hpos x hx
        have hmem3 : ∀ y ∈ l3, y ∈ ds := fun y hy => hmem2 y (List.mem_cons_of_mem _ hy)
        have h0 : 0 ≤ l3.sum := sum_nonneg_of_pos ds l3 hpos hmem3
        rw [List.sum_cons] at hsum2
        have hxle : x ≤ (i : Int) := by omega
        obtain ⟨hltx, hcastx⟩ := hidx x hx1 hxle
        obtain ⟨cx, hcx, _, _, hopt⟩ := hlow _ hltx
        have hb := foldl_relax_le tbl i ds INT_MAX x hx hxle _ hcx
        have hl3 : cx ≤ l3.length := hopt l3 hmem3 (by rw [hcastx]; omega)
        rw [he] at hb
        simp only [List.length_cons]
        omega

/-- Invariant of the outer loop: after the values `1 .. m` the table has
`n + 1` cells, every cell `k <= m` holds the least number of denominations
summing to `k` (a number between `0` and `k`), and the cells above `m` still
hold `INT_MAX`. -/
theorem stampTable_upto (ds : List Int) (hpos : ∀ x ∈ ds, 1 ≤ x) (h1 : 1 ∈ ds) (n : Nat)
    (hn : (n : Int) < INT_MAX) :
    ∀ m, m ≤ n → ∃ t : List Int,
      (List.range' 1 m).foldlM
          (StampDispenser.innerLoop { stampDenoms := ds, numStampDenoms := ds.length })
          (0 :: List.replicate n INT_MAX) = some t ∧
        t.length = n + 1 ∧
        (∀ k, k ≤ m → ∃ c : Nat, t[k]? = some (c : Int) ∧ c ≤ k ∧ IsMinCount ds k c) ∧
        (∀ k, m < k → k ≤ n → t[k]? = some INT_MAX) := by
  intro m
  induction m with
  | zero =>
    intro _
    refine ⟨0 :: List.replicate n INT_MAX, rfl, by simp, ?_, ?_⟩
    · intro k hk
      have hk0 : k = 0 := by omega
      subst hk0
      exact ⟨0, by simp, le_refl _, isMinCount_zero ds⟩
    · intro k hk hkn
      obtain ⟨k', rfl⟩ : ∃ k', k = k' + 1 := ⟨k - 1, by omega⟩
      rw [List.getElem?_cons_succ, List.getElem?_replicate_of_lt (by omega)]
  | succ m ih =>
    intro hm
    obtain ⟨t, hfold, hlen, hlow, hhigh⟩ := ih (by omega)
    have hmax : ((m + 1 : Nat) : Int) < INT_MAX := by
      have : ((m + 1 : Nat) : Int) ≤ (n : Int) := by exact_mod_cast hm
      omega
    have hlow1 : ∀ k, k < m + 1 →
        ∃ c : Nat, t[k]? = some (c : Int) ∧ c ≤ k ∧ IsMinCount ds k c :=
      fun k hk => hlow k (by omega)
    have hlow2 : ∀ k, k < m + 1 → ∃ c : Nat, t[k]? = some (c : Int) ∧ c ≤ k := by
      intro k hk
      obtain ⟨c, hc, hck, _⟩ := hlow1 k hk
      exact ⟨c, hc, hck⟩
    have hcur : t[m + 1]? = some INT_MAX := hhigh (m + 1) (by omega) hm
    have hstep := innerLoop_eq ds hpos (m + 1) t hmax (by omega) hlow2 hcur
    obtain ⟨c, hc, hcm, hmin⟩ := isMinCount_step ds hpos h1 (m + 1) (by omega) hmax t hlow1
    refine ⟨t.set (m + 1) (c : Int), ?_, ?_, ?_, ?_⟩
    · rw [List.range'_1_concat, List.foldlM_append, hfold]
      simp only [Option.bind_eq_bind, Option.some_bind, List.foldlM_cons, List.foldlM_nil]
      rw [Nat.add_comm 1 m, hstep, hc]
      rfl
    · simp [hlen]
    · intro k hk
      rcases Nat.eq_or_lt_of_le hk with heq | hlt
      · subst heq
        exact ⟨c, List.getElem?_set_self (by omega), hcm, hmin⟩
      · rw [List.getElem?_set_ne (by omega)]
        exact hlow k (by omega)
    · intro k hk hkn
      rw [List.getElem?_set_ne (by omega)]
      exact hhigh k (by omega) hkn

/-- The query on a list of denominations that are all at least `1` and
include `1`: for a request from `0` to `INT_MAX - 1` it returns the least
number of denominations summing to the request, a number between `0` and the
request. -/
theorem calc_isMinCount (ds : List Int) (hpos : ∀ x ∈ ds, 1 ≤ x) (h1 : 1 ∈ ds)
    (request : Int) (h0 : 0 ≤ request) (hlt : request < INT_MAX) :
    ∃ c : Nat,
      StampDispenser.CalcNumStampsToFillRequest
          { stampDenoms := ds, numStampDenoms := ds.length } request = some (c : Int) ∧
        (c : Int) ≤ request ∧ IsMinCount ds request c := by
  have hcast : ((request.toNat : Nat) : Int) = request := Int.toNat_of_nonneg h0
  obtain ⟨t, hfold, _, hlow, _⟩ :=
    stampTable_upto ds hpos h1 request.toNat (by rw [hcast]; exact hlt) request.toNat
      (le_refl _)
  obtain ⟨c, hc, hck, hmin⟩ := hlow request.toNat (le_refl _)
  refine ⟨c, ?_, ?_, ?_⟩
  · unfold StampDispenser.CalcNumStampsToFillRequest StampDispenser.stampTable
    simp only [not_lt.mpr h0, not_le.mpr hlt, if_false, hfold, hc]
  · rw [← hcast]; exact_mod_cast hck
  · rw [hcast] at hmin; exact hmin

/-- Outside the range `0 .. INT_MAX - 1` the query does not look at the
denominations. -/
theorem calc_of_not_range (d : StampDispenser) (request : Int) (h : INT_MAX ≤ request) :
    d.CalcNumStampsToFillRequest request = none := by
  have h0 : ¬ request < 0 := by unfold INT_MAX at h; omega
  unfold StampDispenser.CalcNumStampsToFillRequest
  simp only [h0, h, if_false, if_true]

theorem isMinCount_unique (ds : List Int) (v : Int) (c c' : Nat) (h : IsMinCount ds v c)
    (h' : IsMinCount ds v c') : c = c' := by
  obtain ⟨⟨l, hl, hm, hs⟩, hopt⟩ := h
  obtain ⟨⟨l', hl', hm', hs'⟩, hopt'⟩ := h'
  have a := hopt l' hm' hs'
  have b := hopt' l hm hs
  omega

theorem isMinCount_congr (ds ds' : List Int) (hmem : ∀ x, x ∈ ds' ↔ x ∈ ds) (v : Int) (c : Nat)
    (h : IsMinCount ds v c) : IsMinCount ds' v c := by
  obtain ⟨⟨l, hl, hm, hs⟩, hopt⟩ := h
  exact ⟨⟨l, hl, fun x hx => (hmem x).mpr (hm x hx), hs⟩,
    fun l2 hm2 hs2 => hopt l2 (fun x hx => (hmem x).mp (hm2 x hx)) hs2⟩

/-- In a sequence without an ascending adjacent pair no element is below the
last one. -/
theorem last_le_of_chain (l : List Int) (z : Int) (hc : List.Chain' (fun a b => b ≤ a) l)
    (hl : l.getLast? = some z) : ∀ x ∈ l, z ≤ x := by
  induction l with
  | nil => intro x hx; cases hx
  | cons a t ih =>
    cases t with
    | nil =>
      intro x hx
      simp only [List.getLast?_singleton, Option.some.injEq] at hl
      simp only [List.mem_singleton] at hx
      omega
    | cons b t' =>
      rw [List.chain'_cons] at hc
      rw [List.getLast?_cons_cons] at hl
      have hb := ih hc.2 hl
      intro x hx
      rcases List.mem_cons.mp hx with hx | hx
      · have := hb b (List.mem_cons_self _ _)
        have := hc.1
        omega
      · exact hb x hx

/-- What acceptance by the constructor gives the query: the stored array is
the input, its count is the length, every denomination is at least `1` and
`1` is among them. -/
theorem construct_done_facts (src : List Int) (d : StampDispenser)
    (h : StampDispenser.construct src = Outcome.done d) :
    d = { stampDenoms := src, numStampDenoms := src.length } ∧ (∀ x ∈ src, 1 ≤ x) ∧ 1 ∈ src := by
  obtain ⟨_, hc, hl, hd⟩ := construct_done src d h
  exact ⟨hd, last_le_of_chain src 1 hc hl, List.mem_of_getLast?_eq_some hl⟩

/-! ## Properties of the query -/

/-- C2, as stated, fails at the largest request. The constructor accepts
`{1}` and `2147483647 >= 0`, but the table `int stamp_table[request + 1]` has
no length that is an `int`, so `CalcNumStampsToFillRequest(2147483647)` has no
result: no returned count is there to be the minimum. -/
theorem calc_optimal_fails_at_INT_MAX :
    StampDispenser.construct [1] = Outcome.done { stampDenoms := [1], numStampDenoms := 1 } ∧
      (0 : Int) ≤ 2147483647 ∧
      StampDispenser.CalcNumStampsToFillRequest { stampDenoms := [1], numStampDenoms := 1 }
        2147483647 = none ∧
      ¬ ∃ c : Int,
        StampDispenser.CalcNumStampsToFillRequest { stampDenoms := [1], numStampDenoms := 1 }
            2147483647 = some c ∧
          ∀ l : List Int, (∀ x ∈ l, x ∈ ([1] : List Int)) → l.sum = 2147483647 →
            c ≤ (l.length : Int) := by
  refine ⟨by decide, by decide, by decide, ?_⟩
  rintro ⟨c, hc, _⟩
  rw [calc_of_not_range _ 2147483647 (by decide)] at hc
  cases hc

/-- C2, amended: optimality for the requests whose table exists. For a
denomination sequence accepted by the constructor and a request with
`0 <= request < INT_MAX`, `CalcNumStampsToFillRequest` returns a count that is
the minimum over all lists of values drawn from the sequence that sum to the
request: some such list has exactly that many elements and none has fewer. -/
theorem calc_optimal (src : List Int) (d : StampDispenser) (request : Int)
    (hacc : StampDispenser.construct src = Outcome.done d) (h0 : 0 ≤ request)
    (hlt : request < INT_MAX) :
    ∃ c : Int, d.CalcNumStampsToFillRequest request = some c ∧
      (∃ l : List Int, (l.length : Int) = c ∧ (∀ x ∈ l, x ∈ src) ∧ l.sum = request) ∧
      ∀ l : List Int, (∀ x ∈ l, x ∈ src) → l.sum = request → c ≤ (l.length : Int) := by
  obtain ⟨hd, hpos, h1⟩ := construct_done_facts src d hacc
  subst hd
  obtain ⟨c, hc, _, ⟨l, hl, hm, hs⟩, hopt⟩ := calc_isMinCount src hpos h1 request h0 hlt
  refine ⟨c, hc, ⟨l, by rw [hl], hm, hs⟩, ?_⟩
  intro l2 hm2 hs2
  exact_mod_cast hopt l2 hm2 hs2

theorem calc_optimal_witness :
    StampDispenser.construct [90, 30, 24, 10, 6, 2, 1]
        = Outcome.done { stampDenoms := [90, 30, 24, 10, 6, 2, 1], numStampDenoms := 7 } ∧
      (0 : Int) ≤ 19 ∧ (19 : Int) < INT_MAX ∧
      ∃ c : Int,
        StampDispenser.CalcNumStampsToFillRequest
            { stampDenoms := [90, 30, 24, 10, 6, 2, 1], numStampDenoms := 7 } 19 = some c ∧
          (∃ l : List Int, (l.length : Int) = c ∧
            (∀ x ∈ l, x ∈ ([90, 30, 24, 10, 6, 2, 1] : List Int)) ∧ l.sum = 19) ∧
          ∀ l : List Int, (∀ x ∈ l, x ∈ ([90, 30, 24, 10, 6, 2, 1] : List Int)) →
            l.sum = 19 → c ≤ (l.length : Int) :=
  ⟨by decide, by decide, by decide,
    calc_optimal [90, 30, 24, 10, 6, 2, 1]
      { stampDenoms := [90, 30, 24, 10, 6, 2, 1], numStampDenoms := 7 } 19
      (by decide) (by decide) (by decide)⟩

/-- C3. For every request `< 0` and every stored denomination array,
`CalcNumStampsToFillRequest` returns exactly `-1`. -/
theorem calc_negative (d : StampDispenser) (request : Int) (h : request < 0) :
    d.CalcNumStampsToFillRequest request = some (-1) := by
  unfold StampDispenser.CalcNumStampsToFillRequest
  simp only [h, if_true]

theorem calc_negative_witness :
    (-8 : Int) < 0 ∧
      StampDispenser.CalcNumStampsToFillRequest
        { stampDenoms := [90, 30, 24, 10, 6, 2, 1], numStampDenoms := 7 } (-8) = some (-1) :=
  ⟨by decide, calc_negative _ (-8) (by decide)⟩

/-- C4. For every stored denomination array, `CalcNumStampsToFillRequest(0)`
returns `0`. -/
theorem calc_zero (d : StampDispenser) : d.CalcNumStampsToFillRequest 0 = some 0 := by
  unfold StampDispenser.CalcNumStampsToFillRequest StampDispenser.stampTable
  simp [INT_MAX]

/-! ## Properties of the constructor -/

/-- C5, as stated, fails: the constructor accepts `{2, 2, 1}`, whose first
element is not strictly greater than its successor. -/
theorem construct_accepts_equal_neighbours :
    StampDispenser.construct [2, 2, 1]
        = Outcome.done { stampDenoms := [2, 2, 1], numStampDenoms := 3 } ∧
      ¬ List.Chain' (fun a b : Int => b < a) [2, 2, 1] ∧
      ∃ i a b, ([2, 2, 1] : List Int)[i]? = some a ∧ ([2, 2, 1] : List Int)[i + 1]? = some b ∧
        a ≤ b :=
  ⟨by decide, by simp, 0, 2, 2, by decide, by decide, by decide⟩

/-- C5, amended. Every sequence accepted by the constructor is non-increasing
(each element is greater than or equal to its successor) and has last element
`1`; equivalently, no accepted sequence has an adjacent pair whose earlier
element is strictly less than the later one. -/
theorem construct_accepted_nonincreasing (src : List Int) (d : StampDispenser)
    (hacc : StampDispenser.construct src = Outcome.done d) :
    List.Chain' (fun a b => b ≤ a) src ∧ src.getLast? = some 1 ∧
      ¬ ∃ i a b, src[i]? = some a ∧ src[i + 1]? = some b ∧ a < b := by
  obtain ⟨_, hc, hl, _⟩ := construct_done src d hacc
  refine ⟨hc, hl, ?_⟩
  rintro ⟨i, a, b, ha, hb, hab⟩
  have := (chain'_iff_pairs _ _).mp hc i a b ha hb
  omega

theorem construct_accepted_nonincreasing_witness :
    StampDispenser.construct [5, 5, 2, 1, 1]
        = Outcome.done { stampDenoms := [5, 5, 2, 1, 1], numStampDenoms := 5 } ∧
      List.Chain' (fun a b : Int => b ≤ a) [5, 5, 2, 1, 1] ∧
      ([5, 5, 2, 1, 1] : List Int).getLast? = some 1 ∧
      ¬ ∃ i a b, ([5, 5, 2, 1, 1] : List Int)[i]? = some a ∧
        ([5, 5, 2, 1, 1] : List Int)[i + 1]? = some b ∧ a < b :=
  ⟨by decide, construct_accepted_nonincreasing [5, 5, 2, 1, 1]
    { stampDenoms := [5, 5, 2, 1, 1], numStampDenoms := 5 } (by decide)⟩

/-- C6. For every sequence with an adjacent pair whose earlier element is
strictly less than the later one, the constructor takes the `exit(1)` path. -/
theorem construct_rejects_ascending (src : List Int)
    (h : ∃ i a b, src[i]? = some a ∧ src[i + 1]? = some b ∧ a < b) :
    StampDispenser.construct src = Outcome.exited :=
  construct_exited_of_pair src h

theorem construct_rejects_ascending_witness :
    (∃ i a b, ([1, 2] : List Int)[i]? = some a ∧ ([1, 2] : List Int)[i + 1]? = some b ∧ a < b) ∧
      StampDispenser.construct [1, 2] = Outcome.exited :=
  ⟨⟨0, 1, 2, by decide, by decide, by decide⟩,
    construct_rejects_ascending [1, 2] ⟨0, 1, 2, by decide, by decide, by decide⟩⟩

/-- C7. For every non-empty sequence whose last element is not `1`, the
constructor takes the `exit(1)` path. -/
theorem construct_rejects_last (src : List Int) (hne : src ≠ [])
    (hl : src.getLast? ≠ some 1) :
    StampDispenser.construct src = Outcome.exited :=
  construct_exited_of_last src hne hl

theorem construct_rejects_last_witness :
    ([10, 5] : List Int) ≠ [] ∧ ([10, 5] : List Int).getLast? ≠ some 1 ∧
      StampDispenser.construct [10, 5] = Outcome.exited :=
  ⟨by decide, by decide, construct_rejects_last [10, 5] (by decide) (by decide)⟩

/-- C8. For every non-empty strictly descending sequence whose last element is
`1` the constructor succeeds, and the stored array has the count of the input
and equals the input element for element. -/
theorem construct_copies (src : List Int) (hne : src ≠ [])
    (hc : List.Chain' (fun a b => b < a) src) (hl : src.getLast? = some 1) :
    ∃ d : StampDispenser, StampDispenser.construct src = Outcome.done d ∧
      d.numStampDenoms = src.length ∧ d.stampDenoms.length = src.length ∧
      ∀ i : Nat, d.stampDenoms[i]? = src[i]? :=
  ⟨_, construct_of_valid src hne (hc.imp fun {_ _} h => le_of_lt h) hl, rfl, rfl, fun _ => rfl⟩

theorem construct_copies_witness :
    ([90, 30, 24, 10, 6, 2, 1] : List Int) ≠ [] ∧
      List.Chain' (fun a b : Int => b < a) [90, 30, 24, 10, 6, 2, 1] ∧
      ([90, 30, 24, 10, 6, 2, 1] : List Int).getLast? = some 1 ∧
      ∃ d : StampDispenser,
        StampDispenser.construct [90, 30, 24, 10, 6, 2, 1] = Outcome.done d ∧
          d.numStampDenoms = ([90, 30, 24, 10, 6, 2, 1] : List Int).length ∧
          d.stampDenoms.length = ([90, 30, 24, 10, 6, 2, 1] : List Int).length ∧
          ∀ i : Nat, d.stampDenoms[i]? = ([90, 30, 24, 10, 6, 2, 1] : List Int)[i]? :=
  ⟨by decide, by simp, by decide,
    construct_copies [90, 30, 24, 10, 6, 2, 1] (by decide) (by simp) (by decide)⟩

/-! ## Bounds and order of the denominations -/

/-- C9. For a denomination sequence accepted by the constructor and a request
with `0 <= request < INT_MAX`, `CalcNumStampsToFillRequest` returns a count
that is at most the request, and so is neither `INT_MAX` nor `-1`. -/
theorem calc_le_request (src : List Int) (d : StampDispenser) (request : Int)
    (hacc : StampDispenser.construct src = Outcome.done d) (h0 : 0 ≤ request)
    (hlt : request < INT_MAX) :
    ∃ c : Int, d.CalcNumStampsToFillRequest request = some c ∧ c ≤ request ∧
      c ≠ INT_MAX ∧ c ≠ -1 := by
  obtain ⟨hd, hpos, h1⟩ := construct_done_facts src d hacc
  subst hd
  obtain ⟨c, hc, hle, _⟩ := calc_isMinCount src hpos h1 request h0 hlt
  refine ⟨c, hc, hle, ?_, ?_⟩ <;> omega

theorem calc_le_request_witness :
    StampDispenser.construct [90, 30, 24, 10, 6, 2, 1]
        = Outcome.done { stampDenoms := [90, 30, 24, 10, 6, 2, 1], numStampDenoms := 7 } ∧
      (0 : Int) ≤ 20 ∧ (20 : Int) < INT_MAX ∧
      ∃ c : Int,
        StampDispenser.CalcNumStampsToFillRequest
            { stampDenoms := [90, 30, 24, 10, 6, 2, 1], numStampDenoms := 7 } 20 = some c ∧
          c ≤ 20 ∧ c ≠ INT_MAX ∧ c ≠ -1 :=
  ⟨by decide, by decide, by decide,
    calc_le_request [90, 30, 24, 10, 6, 2, 1] _ 20 (by decide) (by decide) (by decide)⟩

/-- C10, order-independence. For a list of positive denominations that
contains `1`, a permutation of it and a request `>= 0`, the table computation
of `CalcNumStampsToFillRequest` over the permuted list gives the same result
as over the original list; that result is a returned value for every request
whose table length `request + 1` is an `int`. -/
theorem calc_perm (ds ds' : List Int) (request : Int) (hpos : ∀ x ∈ ds, 0 < x)
    (h1 : 1 ∈ ds) (hp : ds'.Perm ds) (h0 : 0 ≤ request) :
    StampDispenser.CalcNumStampsToFillRequest
        { stampDenoms := ds', numStampDenoms := ds'.length } request
      = StampDispenser.CalcNumStampsToFillRequest
        { stampDenoms := ds, numStampDenoms := ds.length } request ∧
      (request < INT_MAX → ∃ c : Int,
        StampDispenser.CalcNumStampsToFillRequest
          { stampDenoms := ds, numStampDenoms := ds.length } request = some c) := by
  have hpos1 : ∀ x ∈ ds, 1 ≤ x := fun x hx => hpos x hx
  have hmem : ∀ x, x ∈ ds' ↔ x ∈ ds := fun x => hp.mem_iff
  have hpos2 : ∀ x ∈ ds', 1 ≤ x := fun x hx => hpos1 x ((hmem x).mp hx)
  rcases lt_or_le request INT_MAX with hlt | hge
  · obtain ⟨c, hc, _, hmin⟩ := calc_isMinCount ds hpos1 h1 request h0 hlt
    obtain ⟨c', hc', _, hmin'⟩ :=
      calc_isMinCount ds' hpos2 ((hmem 1).mpr h1) request h0 hlt
    have heq : c = c' :=
      isMinCount_unique ds' request c c' (isMinCount_congr ds ds' hmem request c hmin) hmin'
    subst heq
    exact ⟨by rw [hc, hc'], fun _ => ⟨c, hc⟩⟩
  · rw [calc_of_not_range _ request hge, calc_of_not_range _ request hge]
    refine ⟨rfl, fun hlt => ?_⟩
    omega

theorem calc_perm_witness :
    (∀ x ∈ ([6, 2, 1] : List Int), 0 < x) ∧ (1 : Int) ∈ ([6, 2, 1] : List Int) ∧
      List.Perm ([1, 6, 2] : List Int) [6, 2, 1] ∧ (0 : Int) ≤ 9 ∧
      StampDispenser.CalcNumStampsToFillRequest
          { stampDenoms := [1, 6, 2], numStampDenoms := ([1, 6, 2] : List Int).length } 9
        = StampDispenser.CalcNumStampsToFillRequest
          { stampDenoms := [6, 2, 1], numStampDenoms := ([6, 2, 1] : List Int).length } 9 ∧
      ((9 : Int) < INT_MAX → ∃ c : Int,
        StampDispenser.CalcNumStampsToFillRequest
          { stampDenoms := [6, 2, 1], numStampDenoms := ([6, 2, 1] : List Int).length } 9
            = some c) :=
  ⟨by decide, by decide, by decide, by decide,
    calc_perm [6, 2, 1] [1, 6, 2] 9 (by decide) (by decide) (by decide) (by decide)⟩

/-! ## The self-test -/

set_option maxRecDepth 1000000

/-- C11. The assertions of `main` hold: the constructor accepts
`{90, 30, 24, 10, 6, 2, 1}`, and on the object it builds
`CalcNumStampsToFillRequest` returns `3` for `18`, `-1` for `-8`, `-1` for
`-1`, `0` for `0`, `1` for `1`, `1` for `2`, `2` for `20`, `3` for `122` and
`4` for `19`. -/
theorem main_assertions :
    ∃ stampDispenser : StampDispenser,
      StampDispenser.construct [90, 30, 24, 10, 6, 2, 1] = Outcome.done stampDispenser ∧
      stampDispenser.CalcNumStampsToFillRequest 18 = some 3 ∧
      stampDispenser.CalcNumStampsToFillRequest (-8) = some (-1) ∧
      stampDispenser.CalcNumStampsToFillRequest (-1) = some (-1) ∧
      stampDispenser.CalcNumStampsToFillRequest 0 = some 0 ∧
      stampDispenser.CalcNumStampsToFillRequest 1 = some 1 ∧
      stampDispenser.CalcNumStampsToFillRequest 2 = some 1 ∧
      stampDispenser.CalcNumStampsToFillRequest 20 = some 2 ∧
      stampDispenser.CalcNumStampsToFillRequest 122 = some 3 ∧
      stampDispenser.CalcNumStampsToFillRequest 19 = some 4 :=
  ⟨{ stampDenoms := [90, 30, 24, 10, 6, 2, 1], numStampDenoms := 7 },
    by decide, by decide, by decide, by decide, by decide, by decide, by decide, by decide,
    by decide, by decide⟩

/-! ## The loop without the unit denomination -/

/-- C16. The loop does not establish reachability by itself. On the strictly
descending list `{2}` of positive denominations without `1` and the request
`3`, pass `0` of the inner loop for `i = 3` reads the predecessor cell
`stamp_table[1]`, which still holds `INT_MAX`; that value passes the test
`result != -1`, and `result + 1` wraps to `-2147483648`, which is below
`INT_MAX` and is stored and returned. The returned value is neither
`INT_MAX` nor the length of a list of denominations summing to `3`. -/
theorem calc_without_one_wraps :
    List.Chain' (fun a b : Int => b < a) [2] ∧ (∀ x ∈ ([2] : List Int), 0 < x) ∧
      (1 : Int) ∉ ([2] : List Int) ∧
      StampDispenser.tableBefore { stampDenoms := [2], numStampDenoms := 1 } 3 3 0
        = some [0, INT_MAX, 1, INT_MAX] ∧
      ([0, INT_MAX, 1, INT_MAX] : List Int)[((3 : Int) - 2).toNat]? = some INT_MAX ∧
      INT_MAX ≠ -1 ∧ wrapInt (INT_MAX + 1) = -2147483648 ∧
      wrapInt (INT_MAX + 1) < INT_MAX ∧
      StampDispenser.CalcNumStampsToFillRequest { stampDenoms := [2], numStampDenoms := 1 } 3
        = some (-2147483648) ∧
      (-2147483648 : Int) ≠ INT_MAX ∧
      ¬ ∃ l : List Int, (∀ x ∈ l, x ∈ ([2] : List Int)) ∧ l.sum = 3 ∧
        (l.length : Int) = -2147483648 := by
  refine ⟨by simp, by decide, by decide, by decide, by decide, by decide, by decide,
    by decide, by decide, by decide, ?_⟩
  rintro ⟨l, _, _, hlen⟩
  omega

/-! ## What validation gives the query -/

/-- C17. Every sequence accepted by the constructor is non-increasing and has
last element `1`, so each of its elements is at least `1` and `1` is among
them; hence for every value `i` and every stored denomination
`stampDenoms[j] <= i` the index `i - stampDenoms[j]` lies in `0 .. i - 1`. -/
theorem construct_accepted_indices (src : List Int) (d : StampDispenser)
    (hacc : StampDispenser.construct src = Outcome.done d) :
    List.Chain' (fun a b => b ≤ a) src ∧ src.getLast? = some 1 ∧ (∀ x ∈ src, 1 ≤ x) ∧
      1 ∈ src ∧
      ∀ (i : Int) (j : Nat) (dj : Int), d.stampDenoms[j]? = some dj → dj ≤ i →
        0 ≤ i - dj ∧ i - dj ≤ i - 1 := by
  obtain ⟨_, hc, hl, _⟩ := construct_done src d hacc
  obtain ⟨hd, hpos, h1⟩ := construct_done_facts src d hacc
  subst hd
  refine ⟨hc, hl, hpos, h1, ?_⟩
  intro i j dj hj hle
  have := hpos dj (List.getElem?_mem hj)
  constructor <;> omega

theorem construct_accepted_indices_witness :
    StampDispenser.construct [6, 2, 2, 1]
        = Outcome.done { stampDenoms := [6, 2, 2, 1], numStampDenoms := 4 } ∧
      List.Chain' (fun a b : Int => b ≤ a) [6, 2, 2, 1] ∧
      ([6, 2, 2, 1] : List Int).getLast? = some 1 ∧ (∀ x ∈ ([6, 2, 2, 1] : List Int), 1 ≤ x) ∧
      (1 : Int) ∈ ([6, 2, 2, 1] : List Int) ∧
      ∀ (i : Int) (j : Nat) (dj : Int),
        (StampDispenser.mk [6, 2, 2, 1] 4).stampDenoms[j]? = some dj → dj ≤ i →
          0 ≤ i - dj ∧ i - dj ≤ i - 1 :=
  ⟨by decide, construct_accepted_indices [6, 2, 2, 1]
    { stampDenoms := [6, 2, 2, 1], numStampDenoms := 4 } (by decide)⟩

/-! ## Relations between the counts of different requests -/

/-- Adding one denomination to a list for `v - x` gives a list for `v`. -/
theorem isMinCount_le_succ (ds : List Int) (v x : Int) (c c' : Nat) (hx : x ∈ ds)
    (h : IsMinCount ds v c) (h' : IsMinCount ds (v - x) c') : c ≤ c' + 1 := by
  obtain ⟨⟨l, hl, hm, hs⟩, _⟩ := h'
  have := h.2 (x :: l)
    (fun y hy => (List.mem_cons.mp hy).elim (fun e => e ▸ hx) (hm y))
    (by rw [List.sum_cons, hs]; omega)
  simp only [List.length_cons, hl] at this
  exact this

/-- A shortest list for a request `v >= 1` starts with a denomination
`x <= v` and continues with a list for `v - x`. -/
theorem isMinCount_head (ds : List Int) (hpos : ∀ x ∈ ds, 1 ≤ x) (v : Int) (hv : 1 ≤ v)
    (c : Nat) (h : IsMinCount ds v c) :
    ∃ x ∈ ds, x ≤ v ∧ ∃ l : List Int, l.length + 1 = c ∧ (∀ y ∈ l, y ∈ ds) ∧
      l.sum = v - x := by
  obtain ⟨⟨l, hl, hm, hs⟩, _⟩ := h
  cases l with
  | nil => rw [List.sum_nil] at hs; omega
  | cons x l' =>
    have hm' : ∀ y ∈ l', y ∈ ds := fun y hy => hm y (List.mem_cons_of_mem _ hy)
    have h0 := sum_nonneg_of_pos ds l' hpos hm'
    rw [List.sum_cons] at hs
    exact ⟨x, hm x (List.mem_cons_self _ _), by omega, l', by simpa using hl, hm', by omega⟩

/-- C15, as stated, fails at the largest request. The constructor accepts
`{1}` and `2147483647 >= 1`; the only stored denomination is `1 <= 2147483647`
and `CalcNumStampsToFillRequest(2147483647 - 1)` returns a count, so the
right-hand side of the recurrence is a number, but
`CalcNumStampsToFillRequest(2147483647)` has no result to equal it. -/
theorem calc_recurrence_fails_at_INT_MAX :
    StampDispenser.construct [1] = Outcome.done { stampDenoms := [1], numStampDenoms := 1 } ∧
      (1 : Int) ≤ 2147483647 ∧
      (∃ c' : Int,
        StampDispenser.CalcNumStampsToFillRequest { stampDenoms := [1], numStampDenoms := 1 }
          (2147483647 - 1) = some c') ∧
      StampDispenser.CalcNumStampsToFillRequest { stampDenoms := [1], numStampDenoms := 1 }
        2147483647 = none ∧
      ¬ ∃ c c' : Int,
        StampDispenser.CalcNumStampsToFillRequest { stampDenoms := [1], numStampDenoms := 1 }
            2147483647 = some c ∧
          StampDispenser.CalcNumStampsToFillRequest { stampDenoms := [1], numStampDenoms := 1 }
            (2147483647 - 1) = some c' ∧ c = 1 + c' := by
  refine ⟨by decide, by decide, ?_, by decide, ?_⟩
  · obtain ⟨c, hc, _⟩ :=
      calc_isMinCount [1] (by decide) (by decide) (2147483647 - 1) (by decide) (by decide)
    exact ⟨c, hc⟩
  · rintro ⟨c, c', hc, _⟩
    rw [calc_of_not_range _ 2147483647 (by decide)] at hc
    cases hc

/-- C15, amended: the recurrence for the requests whose table exists. For a
denomination sequence accepted by the constructor and a request `v` with
`1 <= v < INT_MAX`, `CalcNumStampsToFillRequest(v)` returns a count, and that
count is `1` plus the minimum of the counts returned for `v - x` over the
stored denominations `x <= v`: every such call returns a count, the count for
`v` is `1` plus one of them and at most `1` plus each of them. -/
theorem calc_recurrence (src : List Int) (d : StampDispenser) (v : Int)
    (hacc : StampDispenser.construct src = Outcome.done d) (hv : 1 ≤ v)
    (hlt : v < INT_MAX) :
    ∃ c : Int, d.CalcNumStampsToFillRequest v = some c ∧
      (∃ x ∈ d.stampDenoms, x ≤ v ∧ ∃ c' : Int,
        d.CalcNumStampsToFillRequest (v - x) = some c' ∧ c = 1 + c') ∧
      ∀ x ∈ d.stampDenoms, x ≤ v → ∃ c' : Int,
        d.CalcNumStampsToFillRequest (v - x) = some c' ∧ c ≤ 1 + c' := by
  obtain ⟨hd, hpos, h1⟩ := construct_done_facts src d hacc
  subst hd
  obtain ⟨cv, hcv, _, hmin⟩ := calc_isMinCount src hpos h1 v (by omega) hlt
  have hall : ∀ x ∈ src, x ≤ v → ∃ c' : Nat,
      StampDispenser.CalcNumStampsToFillRequest
          { stampDenoms := src, numStampDenoms := src.length } (v - x) = some (c' : Int) ∧
        IsMinCount src (v - x) c' ∧ cv ≤ c' + 1 := by
    intro x hx hle
    have hx1 := hpos x hx
    obtain ⟨c', hc', _, hmin'⟩ :=
      calc_isMinCount src hpos h1 (v - x) (by omega) (by omega)
    exact ⟨c', hc', hmin', isMinCount_le_succ src v x cv c' hx hmin hmin'⟩
  refine ⟨cv, hcv, ?_, ?_⟩
  · obtain ⟨x, hx, hle, l, hl, hm, hs⟩ := isMinCount_head src hpos v hv cv hmin
    obtain ⟨c', hc', hmin', hle'⟩ := hall x hx hle
    have := hmin'.2 l hm hs
    exact ⟨x, hx, hle, c', hc', by omega⟩
  · intro x hx hle
    obtain ⟨c', hc', _, hle'⟩ := hall x hx hle
    exact ⟨c', hc', by omega⟩

theorem calc_recurrence_witness :
    StampDispenser.construct [10, 6, 2, 1]
        = Outcome.done { stampDenoms := [10, 6, 2, 1], numStampDenoms := 4 } ∧
      (1 : Int) ≤ 19 ∧ (19 : Int) < INT_MAX ∧
      ∃ c : Int, (StampDispenser.mk [10, 6, 2, 1] 4).CalcNumStampsToFillRequest 19 = some c ∧
        (∃ x ∈ (StampDispenser.mk [10, 6, 2, 1] 4).stampDenoms, x ≤ 19 ∧ ∃ c' : Int,
          (StampDispenser.mk [10, 6, 2, 1] 4).CalcNumStampsToFillRequest (19 - x) = some c' ∧
            c = 1 + c') ∧
        ∀ x ∈ (StampDispenser.mk [10, 6, 2, 1] 4).stampDenoms, x ≤ 19 → ∃ c' : Int,
          (StampDispenser.mk [10, 6, 2, 1] 4).CalcNumStampsToFillRequest (19 - x) = some c' ∧
            c ≤ 1 + c' :=
  ⟨by decide, by decide, by decide,
    calc_recurrence [10, 6, 2, 1] { stampDenoms := [10, 6, 2, 1], numStampDenoms := 4 } 19
      (by decide) (by decide) (by decide)⟩

/-- C19, as stated, fails at the largest request. The constructor accepts
`{2147483647, 1}`, so `2147483647 >= 1` is one of the stored denominations,
but `CalcNumStampsToFillRequest(2147483647)` has no result, so it does not
return `1`. -/
theorem calc_one_iff_fails_at_INT_MAX :
    StampDispenser.construct [2147483647, 1]
        = Outcome.done { stampDenoms := [2147483647, 1], numStampDenoms := 2 } ∧
      (1 : Int) ≤ 2147483647 ∧
      (2147483647 : Int) ∈ (StampDispenser.mk [2147483647, 1] 2).stampDenoms ∧
      StampDispenser.CalcNumStampsToFillRequest
        { stampDenoms := [2147483647, 1], numStampDenoms := 2 } 2147483647 = none ∧
      ¬ (StampDispenser.CalcNumStampsToFillRequest
            { stampDenoms := [2147483647, 1], numStampDenoms := 2 } 2147483647 = some 1 ↔
          (2147483647 : Int) ∈ (StampDispenser.mk [2147483647, 1] 2).stampDenoms) := by
  refine ⟨by decide, by decide, by decide, by decide, ?_⟩
  intro h
  have h1 := h.mpr (by decide)
  rw [calc_of_not_range _ 2147483647 (by decide)] at h1
  cases h1

/-- C19, amended: the single-stamp characterisation for the requests whose
table exists. For a denomination sequence accepted by the constructor and a
request `v` with `1 <= v < INT_MAX`, `CalcNumStampsToFillRequest(v)` returns
`1` if and only if `v` is one of the stored denominations, and for every
other such `v` it returns a count that is at least `2`. -/
theorem calc_one_iff (src : List Int) (d : StampDispenser) (v : Int)
    (hacc : StampDispenser.construct src = Outcome.done d) (hv : 1 ≤ v)
    (hlt : v < INT_MAX) :
    (d.CalcNumStampsToFillRequest v = some 1 ↔ v ∈ d.stampDenoms) ∧
      (v ∉ d.stampDenoms → ∃ c : Int, d.CalcNumStampsToFillRequest v = some c ∧ 2 ≤ c) := by
  obtain ⟨hd, hpos, h1⟩ := construct_done_facts src d hacc
  subst hd
  obtain ⟨cv, hcv, _, hmin⟩ := calc_isMinCount src hpos h1 v (by omega) hlt
  obtain ⟨x, hx, hle, l, hl, hm, hs⟩ := isMinCount_head src hpos v hv cv hmin
  have hiff : cv = 1 ↔ v ∈ src := by
    constructor
    · intro h1c
      have hnil : l = [] := List.length_eq_zero.mp (by omega)
      rw [hnil, List.sum_nil] at hs
      have : x = v := by omega
      rw [← this]
      exact hx
    · intro hmem
      have := hmin.2 [v] (fun y hy => by rw [List.mem_singleton.mp hy]; exact hmem)
        (by simp)
      simp only [List.length_singleton] at this
      omega
  constructor
  · rw [hcv]
    constructor
    · intro h
      have hc1 : (cv : Int) = 1 := Option.some.inj h
      exact hiff.mp (by exact_mod_cast hc1)
    · intro hmem
      have hc1 : cv = 1 := hiff.mpr hmem
      rw [hc1]
      rfl
  · intro hn
    have hne : cv ≠ 1 := fun e => hn (hiff.mp e)
    refine ⟨cv, hcv, ?_⟩
    have : 2 ≤ cv := by omega
    exact_mod_cast this

theorem calc_one_iff_witness :
    StampDispenser.construct [10, 6, 2, 1]
        = Outcome.done { stampDenoms := [10, 6, 2, 1], numStampDenoms := 4 } ∧
      (1 : Int) ≤ 6 ∧ (6 : Int) < INT_MAX ∧
      ((StampDispenser.mk [10, 6, 2, 1] 4).CalcNumStampsToFillRequest 6 = some 1 ↔
        (6 : Int) ∈ (StampDispenser.mk [10, 6, 2, 1] 4).stampDenoms) ∧
      ((6 : Int) ∉ (StampDispenser.mk [10, 6, 2, 1] 4).stampDenoms → ∃ c : Int,
        (StampDispenser.mk [10, 6, 2, 1] 4).CalcNumStampsToFillRequest 6 = some c ∧ 2 ≤ c) :=
  ⟨by decide, by decide, by decide,
    calc_one_iff [10, 6, 2, 1] { stampDenoms := [10, 6, 2, 1], numStampDenoms := 4 } 6
      (by decide) (by decide) (by decide)⟩

/-! ## The table inside the double loop -/

/-- C14, table invariant. For a denomination sequence accepted by the
constructor and a request `R >= 0` whose table exists (`R + 1` is an `int`),
the double loop finishes with a table of `R + 1` entries whose entry `0` is
`0` and whose entry `i`, for every `0 <= i <= R`, is the least number of
denominations summing to `i`, which is the value
`CalcNumStampsToFillRequest(i)` returns. -/
theorem table_invariant (src : List Int) (d : StampDispenser) (R : Int)
    (hacc : StampDispenser.construct src = Outcome.done d) (h0 : 0 ≤ R) (hlt : R < INT_MAX) :
    ∃ t : List Int, d.stampTable R.toNat = some t ∧ (t.length : Int) = R + 1 ∧
      t[0]? = some 0 ∧
      ∀ i : Nat, (i : Int) ≤ R → ∃ c : Nat, t[i]? = some (c : Int) ∧ IsMinCount src i c ∧
        d.CalcNumStampsToFillRequest i = some (c : Int) := by
  obtain ⟨hd, hpos, h1⟩ := construct_done_facts src d hacc
  subst hd
  have hcast : ((R.toNat : Nat) : Int) = R := Int.toNat_of_nonneg h0
  obtain ⟨t, hfold, hlen, hlow, _⟩ :=
    stampTable_upto src hpos h1 R.toNat (by rw [hcast]; exact hlt) R.toNat (le_refl _)
  refine ⟨t, hfold, by rw [hlen]; push_cast; rw [hcast], ?_, ?_⟩
  · obtain ⟨c, hc, hc0, _⟩ := hlow 0 (Nat.zero_le _)
    have : c = 0 := by omega
    subst this
    exact hc
  · intro i hi
    obtain ⟨c, hc, _, hmin⟩ := hlow i (by omega)
    obtain ⟨c', hc', _, hmin'⟩ :=
      calc_isMinCount src hpos h1 (i : Int) (Int.ofNat_nonneg i) (by omega)
    have heq : c = c' := isMinCount_unique src i c c' hmin hmin'
    subst heq
    exact ⟨c, hc, hmin, hc'⟩

theorem table_invariant_witness :
    StampDispenser.construct [10, 6, 2, 1]
        = Outcome.done { stampDenoms := [10, 6, 2, 1], numStampDenoms := 4 } ∧
      (0 : Int) ≤ 7 ∧ (7 : Int) < INT_MAX ∧
      ∃ t : List Int,
        (StampDispenser.mk [10, 6, 2, 1] 4).stampTable (7 : Int).toNat = some t ∧
          (t.length : Int) = 7 + 1 ∧ t[0]? = some 0 ∧
          ∀ i : Nat, (i : Int) ≤ 7 → ∃ c : Nat, t[i]? = some (c : Int) ∧
            IsMinCount [10, 6, 2, 1] i c ∧
            (StampDispenser.mk [10, 6, 2, 1] 4).CalcNumStampsToFillRequest i
              = some (c : Int) :=
  ⟨by decide, by decide, by decide,
    table_invariant [10, 6, 2, 1] { stampDenoms := [10, 6, 2, 1], numStampDenoms := 4 } 7
      (by decide) (by decide) (by decide)⟩

/-- The table just before pass `j` for the value `i`: the cells below `i` are
final and hold values between `0` and their index, the cells above `i` hold
`INT_MAX`, and cell `i` holds the fold of `relax` over the first `j`
denominations. -/
theorem tableBefore_eq (ds : List Int) (hpos : ∀ x ∈ ds, 1 ≤ x) (h1 : 1 ∈ ds) (n : Nat)
    (hn : (n : Int) < INT_MAX) (i j : Nat) (hi1 : 1 ≤ i) (hin : i ≤ n) (hj : j ≤ ds.length) :
    ∃ t : List Int,
      StampDispenser.tableBefore { stampDenoms := ds, numStampDenoms := ds.length } n i j
        = some (t.set i ((ds.take j).foldl (relax t i) INT_MAX)) ∧
      t.length = n + 1 ∧
      (∀ k, k < i → ∃ c : Nat, t[k]? = some (c : Int) ∧ c ≤ k) ∧
      (∀ k, i ≤ k → k ≤ n → t[k]? = some INT_MAX) := by
  obtain ⟨t, hfold, hlen, hlow, hhigh⟩ := stampTable_upto ds hpos h1 n hn (i - 1) (by omega)
  have hmax : (i : Int) < INT_MAX := by
    have : (i : Int) ≤ (n : Int) := by exact_mod_cast hin
    omega
  have hlow2 : ∀ k, k < i → ∃ c : Nat, t[k]? = some (c : Int) ∧ c ≤ k := by
    intro k hk
    obtain ⟨c, hc, hck, _⟩ := hlow k (by omega)
    exact ⟨c, hc, hck⟩
  have hhigh2 : ∀ k, i ≤ k → k ≤ n → t[k]? = some INT_MAX :=
    fun k hk hkn => hhigh k (by omega) hkn
  refine ⟨t, ?_, hlen, hlow2, hhigh2⟩
  unfold StampDispenser.tableBefore
  simp only [hfold]
  exact innerLoop_upto ds hpos i t hmax (by omega) hlow2 (hhigh2 i (le_refl _) hin) j hj

/-- The fold of `relax` from `INT_MAX`, over a table whose cells below `i`
are not negative, is at least `1`. -/
theorem foldl_relax_pos (tbl : List Int) (i : Nat) (ds : List Int)
    (hpos : ∀ x ∈ ds, 1 ≤ x)
    (hlow : ∀ k, k < i → ∃ c : Nat, tbl[k]? = some (c : Int) ∧ c ≤ k) :
    1 ≤ ds.foldl (relax tbl i) INT_MAX := by
  rcases foldl_relax_cases tbl i ds INT_MAX with h | ⟨x, hx, hle, c, hc, he⟩
  · rw [h]; decide
  · have hx1 := hpos x hx
    obtain ⟨c', hc', _⟩ := hlow ((i : Int) - x).toNat (by omega)
    rw [hc] at hc'
    cases hc'
    rw [he]
    omega

/-- C12. For a denomination sequence accepted by the constructor and a request
`>= 0` whose table exists (`request + 1` is an `int`), take any pass of the
double loop: a value `i` with `1 <= i <= request` and an index
`j < numStampDenoms`. If the pass reads a predecessor cell, that is if
`stampDenoms[j] <= i`, then the index `i - stampDenoms[j]` lies in
`0 .. i - 1` and the cell read holds a value between `0` and
`i - stampDenoms[j]`; the value is not `INT_MAX` and `result + 1` stays in
the `int` range. -/
theorem loop_reads_below_sentinel (src : List Int) (d : StampDispenser) (request : Int)
    (i j : Nat) (hacc : StampDispenser.construct src = Outcome.done d) (h0 : 0 ≤ request)
    (hlt : request < INT_MAX) (hi1 : 1 ≤ i) (hin : (i : Int) ≤ request)
    (hj : j < d.numStampDenoms) :
    ∃ (t : List Int) (dj : Int), d.tableBefore request.toNat i j = some t ∧
      d.stampDenoms[j]? = some dj ∧
      (dj ≤ (i : Int) →
        0 ≤ (i : Int) - dj ∧ (i : Int) - dj ≤ (i : Int) - 1 ∧
        ∃ result : Int, t[((i : Int) - dj).toNat]? = some result ∧ 0 ≤ result ∧
          result ≤ (i : Int) - dj ∧ result ≠ INT_MAX ∧ result + 1 ≤ INT_MAX ∧
          wrapInt (result + 1) = result + 1) := by
  obtain ⟨hd, hpos, h1⟩ := construct_done_facts src d hacc
  subst hd
  simp only at hj
  have hcast : ((request.toNat : Nat) : Int) = request := Int.toNat_of_nonneg h0
  obtain ⟨t, ht, _, hlow, _⟩ :=
    tableBefore_eq src hpos h1 request.toNat (by rw [hcast]; exact hlt) i j hi1 (by omega)
      (le_of_lt hj)
  have hget : src[j]? = some src[j] := List.getElem?_eq_getElem hj
  refine ⟨_, src[j], ht, hget, ?_⟩
  intro hle
  have hd1 : 1 ≤ src[j] := hpos _ (List.getElem?_mem hget)
  have hidx : ((i : Int) - src[j]).toNat < i := by omega
  obtain ⟨c, hc, hck⟩ := hlow _ hidx
  refine ⟨by omega, by omega, c, ?_, by omega, by omega, ?_, ?_, ?_⟩
  · rw [List.getElem?_set_ne (Nat.ne_of_gt hidx)]
    exact hc
  · omega
  · omega
  · apply wrapInt_eq_self
    · omega
    · unfold INT_MAX at hlt; omega

theorem loop_reads_below_sentinel_witness :
    StampDispenser.construct [10, 6, 2, 1]
        = Outcome.done { stampDenoms := [10, 6, 2, 1], numStampDenoms := 4 } ∧
      (0 : Int) ≤ 7 ∧ (7 : Int) < INT_MAX ∧ 1 ≤ 7 ∧ ((7 : Nat) : Int) ≤ 7 ∧
      1 < (StampDispenser.mk [10, 6, 2, 1] 4).numStampDenoms ∧
      ∃ (t : List Int) (dj : Int),
        (StampDispenser.mk [10, 6, 2, 1] 4).tableBefore (7 : Int).toNat 7 1 = some t ∧
          (StampDispenser.mk [10, 6, 2, 1] 4).stampDenoms[1]? = some dj ∧
          (dj ≤ ((7 : Nat) : Int) →
            0 ≤ ((7 : Nat) : Int) - dj ∧ ((7 : Nat) : Int) - dj ≤ ((7 : Nat) : Int) - 1 ∧
            ∃ result : Int, t[(((7 : Nat) : Int) - dj).toNat]? = some result ∧ 0 ≤ result ∧
              result ≤ ((7 : Nat) : Int) - dj ∧ result ≠ INT_MAX ∧ result + 1 ≤ INT_MAX ∧
              wrapInt (result + 1) = result + 1) :=
  ⟨by decide, by decide, by decide, by decide, by decide, by decide,
    loop_reads_below_sentinel [10, 6, 2, 1]
      { stampDenoms := [10, 6, 2, 1], numStampDenoms := 4 } 7 7 1
      (by decide) (by decide) (by decide) (by decide) (by decide) (by decide)⟩

/-! ## The loop without the test `result != -1` -/

/-- One pass of the body without the test, on a table whose cells below `i`
hold values between `0` and their index, changes cell `i` as `relax` says. -/
theorem innerBodyNoGate_step (ds : List Int) (hpos : ∀ x ∈ ds, 1 ≤ x) (i : Nat)
    (tbl : List Int) (hmax : (i : Int) < INT_MAX) (hlen : i < tbl.length)
    (hlow : ∀ k, k < i → ∃ c : Nat, tbl[k]? = some (c : Int) ∧ c ≤ k)
    (v : Int) (j : Nat) (dj : Int) (hj : ds[j]? = some dj) :
    StampDispenser.innerBodyNoGate { stampDenoms := ds, numStampDenoms := ds.length } i
        (tbl.set i v) j = some (tbl.set i (relax tbl i v dj)) := by
  have hdj : 1 ≤ dj := hpos dj (List.getElem?_mem hj)
  unfold StampDispenser.innerBodyNoGate relax
  simp only [hj]
  by_cases hle : dj ≤ (i : Int)
  · simp only [hle, if_true]
    have hidx : ((i : Int) - dj).toNat < i := by omega
    obtain ⟨c, hc, hck⟩ := hlow _ hidx
    rw [List.getElem?_set_ne (Nat.ne_of_gt hidx), hc, List.getElem?_set_self hlen]
    simp only
    have hw : wrapInt ((c : Int) + 1) = (c : Int) + 1 := by
      apply wrapInt_eq_self
      · omega
      · unfold INT_MAX at hmax; omega
    rw [hw]
    by_cases hlt : (c : Int) + 1 < v
    · simp [hlt, List.set_set]
    · simp [hlt]
  · simp [hle]

/-- On such a table the inner loop without the test does what the inner loop
of the source does. -/
theorem innerLoopNoGate_eq (ds : List Int) (hpos : ∀ x ∈ ds, 1 ≤ x) (i : Nat) (tbl : List Int)
    (hmax : (i : Int) < INT_MAX) (hlen : i < tbl.length)
    (hlow : ∀ k, k < i → ∃ c : Nat, tbl[k]? = some (c : Int) ∧ c ≤ k)
    (hcur : tbl[i]? = some INT_MAX) :
    StampDispenser.innerLoopNoGate { stampDenoms := ds, numStampDenoms := ds.length } tbl i
      = StampDispenser.innerLoop { stampDenoms := ds, numStampDenoms := ds.length } tbl i := by
  rw [innerLoop_eq ds hpos i tbl hmax hlen hlow hcur]
  have key : ∀ j, j ≤ ds.length →
      (List.range j).foldlM
          (StampDispenser.innerBodyNoGate
            { stampDenoms := ds, numStampDenoms := ds.length } i) tbl
        = some (tbl.set i ((ds.take j).foldl (relax tbl i) INT_MAX)) := by
    intro j
    induction j with
    | zero =>
      intro _
      simp only [List.range_zero, List.foldlM_nil, List.take_zero, List.foldl_nil]
      rw [set_eq_self_of_getElem? tbl i INT_MAX hcur]
      rfl
    | succ j ih =>
      intro hj
      have hjl : j < ds.length := by omega
      have hget : ds[j]? = some ds[j] := List.getElem?_eq_getElem hjl
      rw [List.range_succ, List.foldlM_append, ih (by omega)]
      simp only [Option.bind_eq_bind, Option.some_bind, List.foldlM_cons, List.foldlM_nil]
      rw [innerBodyNoGate_step ds hpos i tbl hmax hlen hlow _ j _ hget]
      simp only [Option.some_bind, List.take_succ, hget, Option.toList_some,
        List.foldl_append, List.foldl_cons, List.foldl_nil]
      rfl
  unfold StampDispenser.innerLoopNoGate
  simp only
  rw [key ds.length (le_refl _), List.take_length]

/-- The outer loop without the test builds the table of the source. -/
theorem stampTableNoGate_upto (ds : List Int) (hpos : ∀ x ∈ ds, 1 ≤ x) (h1 : 1 ∈ ds) (n : Nat)
    (hn : (n : Int) < INT_MAX) :
    ∀ m, m ≤ n →
      (List.range' 1 m).foldlM
          (StampDispenser.innerLoopNoGate { stampDenoms := ds, numStampDenoms := ds.length })
          (0 :: List.replicate n INT_MAX)
        = (List.range' 1 m).foldlM
          (StampDispenser.innerLoop { stampDenoms := ds, numStampDenoms := ds.length })
          (0 :: List.replicate n INT_MAX) := by
  intro m
  induction m with
  | zero => intro _; rfl
  | succ m ih =>
    intro hm
    obtain ⟨t, hfold, hlen, hlow, hhigh⟩ := stampTable_upto ds hpos h1 n hn m (by omega)
    have hmax : ((m + 1 : Nat) : Int) < INT_MAX := by
      have : ((m + 1 : Nat) : Int) ≤ (n : Int) := by exact_mod_cast hm
      omega
    have hlow2 : ∀ k, k < m + 1 → ∃ c : Nat, t[k]? = some (c : Int) ∧ c ≤ k := by
      intro k hk
      obtain ⟨c, hc, hck, _⟩ := hlow k (by omega)
      exact ⟨c, hc, hck⟩
    have hcur : t[m + 1]? = some INT_MAX := hhigh (m + 1) (by omega) hm
    rw [List.range'_1_concat, List.foldlM_append, List.foldlM_append, ih (by omega), hfold]
    simp only [Option.bind_eq_bind, Option.some_bind, List.foldlM_cons, List.foldlM_nil]
    rw [Nat.add_comm 1 m, innerLoopNoGate_eq ds hpos (m + 1) t hmax (by omega) hlow2 hcur]

/-- On denominations that are all at least `1` and include `1`, the function
without the test returns what `CalcNumStampsToFillRequest` returns. -/
theorem calcNoGate_eq (ds : List Int) (hpos : ∀ x ∈ ds, 1 ≤ x) (h1 : 1 ∈ ds) (request : Int) :
    StampDispenser.CalcNumStampsNoGate
        { stampDenoms := ds, numStampDenoms := ds.length } request
      = StampDispenser.CalcNumStampsToFillRequest
        { stampDenoms := ds, numStampDenoms := ds.length } request := by
  unfold StampDispenser.CalcNumStampsNoGate StampDispenser.CalcNumStampsToFillRequest
  by_cases hneg : request < 0
  · simp only [hneg, if_true]
  · by_cases hge : INT_MAX ≤ request
    · simp only [hneg, hge, if_false, if_true]
    · simp only [hneg, hge, if_false]
      have hcast : ((request.toNat : Nat) : Int) = request :=
        Int.toNat_of_nonneg (not_lt.mp hneg)
      unfold StampDispenser.stampTableNoGate StampDispenser.stampTable
      rw [stampTableNoGate_upto ds hpos h1 request.toNat (by rw [hcast]; exact not_le.mp hge)
        request.toNat (le_refl _)]

/-- C13. The test `result != -1` never fails. For a denomination sequence
accepted by the constructor: in a call with a request `>= 0` whose table
exists, before every pass of the double loop (and after the last pass for
each value `i`) no cell of the table holds `-1`; and for every request
`CalcNumStampsToFillRequest` returns what the same function with the test
removed returns. -/
theorem gate_is_dead (src : List Int) (d : StampDispenser)
    (hacc : StampDispenser.construct src = Outcome.done d) :
    (∀ (request : Int) (i j : Nat), 0 ≤ request → request < INT_MAX → 1 ≤ i →
        (i : Int) ≤ request → j ≤ d.numStampDenoms →
        ∃ t : List Int, d.tableBefore request.toNat i j = some t ∧
          ∀ k : Nat, t[k]? ≠ some (-1)) ∧
      ∀ request : Int,
        d.CalcNumStampsToFillRequest request = d.CalcNumStampsNoGate request := by
  obtain ⟨hd, hpos, h1⟩ := construct_done_facts src d hacc
  subst hd
  refine ⟨?_, fun request => (calcNoGate_eq src hpos h1 request).symm⟩
  intro request i j h0 hlt hi1 hin hj
  simp only at hj
  have hcast : ((request.toNat : Nat) : Int) = request := Int.toNat_of_nonneg h0
  obtain ⟨t, ht, hlen, hlow, hhigh⟩ :=
    tableBefore_eq src hpos h1 request.toNat (by rw [hcast]; exact hlt) i j hi1 (by omega) hj
  refine ⟨_, ht, ?_⟩
  intro k hk
  have hv := foldl_relax_pos t i (src.take j)
    (fun x hx => hpos x (List.mem_of_mem_take hx)) hlow
  rcases Nat.lt_trichotomy k i with hki | hki | hki
  · rw [List.getElem?_set_ne (Nat.ne_of_gt hki)] at hk
    obtain ⟨c, hc, _⟩ := hlow k hki
    rw [hc] at hk
    have := Option.some.inj hk
    omega
  · subst hki
    rw [List.getElem?_set_self (by omega)] at hk
    have := Option.some.inj hk
    omega
  · rw [List.getElem?_set_ne (Nat.ne_of_lt hki)] at hk
    rcases Nat.lt_or_ge request.toNat k with hkn | hkn
    · rw [List.getElem?_eq_none (by omega)] at hk
      cases hk
    · rw [hhigh k (le_of_lt hki) hkn] at hk
      have := Option.some.inj hk
      unfold INT_MAX at this
      omega

theorem gate_is_dead_witness :
    StampDispenser.construct [10, 6, 2, 1]
        = Outcome.done { stampDenoms := [10, 6, 2, 1], numStampDenoms := 4 } ∧
      (∀ (request : Int) (i j : Nat), 0 ≤ request → request < INT_MAX → 1 ≤ i →
        (i : Int) ≤ request → j ≤ (StampDispenser.mk [10, 6, 2, 1] 4).numStampDenoms →
        ∃ t : List Int,
          (StampDispenser.mk [10, 6, 2, 1] 4).tableBefore request.toNat i j = some t ∧
            ∀ k : Nat, t[k]? ≠ some (-1)) ∧
      ∀ request : Int,
        (StampDispenser.mk [10, 6, 2, 1] 4).CalcNumStampsToFillRequest request
          = (StampDispenser.mk [10, 6, 2, 1] 4).CalcNumStampsNoGate request :=
  ⟨by decide,
    gate_is_dead [10, 6, 2, 1] { stampDenoms := [10, 6, 2, 1], numStampDenoms := 4 }
      (by decide)⟩

end LGStampDispenser
